import Mathlib

/-!
Verification of the Markov music composer (composer.py).

The embedding models the composer's data and operations directly from the
source:

* MIDI messages become the inductive type `Msg`; a track is a `List Msg` and
  a MIDI file is a `List (List Msg)` of tracks (MIDI parsing itself is an
  external library and out of scope).
* Python dicts (insertion ordered) become association lists; the nested
  `defaultdict` accumulator and the normalized probability table share one
  type `TransTable` with rational values, exactly as the Python dict holds
  ints during counting and floats after normalization.
* Floating point division `count / total` is modelled by exact rational
  division.
* The process-wide random generator is modelled by an `Oracle` of streams:
  an index stream for `random.choice`, uniform draws for `random.choices`
  (cumulative-weight sampling) and an integer stream for `random.randint`.
* A Python function that can raise is modelled in `Except String`; the
  `UnboundLocalError` on `channel` in `_generate_track` is reached when the
  generation loop never assigned `channel`.
-/

namespace MusicComposer

/-- A MIDI message, reduced to the fields the composer reads or writes:
note_on / note_off carry (note, velocity, time, channel), program_change
carries (program, channel), set_tempo carries the tempo value. -/
inductive Msg where
  | note_on (note velocity time channel : Nat)
  | note_off (note velocity time channel : Nat)
  | program_change (program channel : Nat)
  | set_tempo (tempo : Nat)
  deriving DecidableEq, Repr

/-- A Markov state: a tuple of `order` consecutive pitches (Python tuple of ints). -/
abbrev State := List Nat

/-- Successor map of one state: pitch to number (count while accumulating,
probability after normalization), insertion ordered like a Python dict. -/
abbrev NoteDist := List (Nat × ℚ)

/-- A transition table: state to successor map, insertion ordered. -/
abbrev TransTable := List (State × NoteDist)

/-- Association-list lookup, the semantics of `d.get(k)` / `d[k]` on a
Python dict. -/
def alookup {α β : Type} [DecidableEq α] : List (α × β) → α → Option β
  | [], _ => none
  | e :: rest, k => if k = e.1 then some e.2 else alookup rest k

/-- Association-list update: apply `f` to the value at `k` (defaulting to
`d` when absent, as a `defaultdict` does); a fresh key is appended at the
end, preserving Python dict insertion order. -/
def aupdate {α β : Type} [DecidableEq α] (m : List (α × β)) (k : α) (d : β) (f : β → β) :
    List (α × β) :=
  match m with
  | [] => [(k, f d)]
  | e :: rest => if k = e.1 then (e.1, f e.2) :: rest else e :: aupdate rest k d f

/-- `transitions[state][next_note] += 1` on the nested defaultdict. -/
def incr (m : TransTable) (s : State) (n : Nat) : TransTable :=
  aupdate m s [] (fun dist => aupdate dist n 0 (fun c => c + 1))

/-- One iteration of the counting loop of `_build_transitions`:
`state = tuple(notes[i:i+order]); next_note = notes[i+order];
transitions[state][next_note] += 1`. -/
def slideStep (order : Nat) (notes : List Nat) (m : TransTable) (i : Nat) : TransTable :=
  incr m ((notes.drop i).take order) (notes.getD (i + order) 0)

/-- The counting loop of `_build_transitions`:
`for i in range(len(notes) - order)`. -/
def accumulateCounts (order : Nat) (m : TransTable) (notes : List Nat) : TransTable :=
  (List.range (notes.length - order)).foldl (slideStep order notes) m

/-- The normalization loop of `_build_transitions`: for each state divide
each successor value by the total of that state's values. -/
def normalizeTable (m : TransTable) : TransTable :=
  m.map (fun e =>
    let total : ℚ := (e.2.map (fun p => p.2)).sum
    (e.1, e.2.map (fun p => (p.1, p.2 / total))))

/-- `_build_transitions(notes, track_type)` acting on the table it mutates:
early return (table unchanged) when `len(notes) < order + 1`, otherwise
accumulate counts into the existing table and normalize every state. -/
def build_transitions (order : Nat) (m : TransTable) (notes : List Nat) : TransTable :=
  if notes.length < order + 1 then m
  else normalizeTable (accumulateCounts order m notes)

/-- The composer's persistent state: `self.order` and
`self.transitions['melody'] / ['bass']`. -/
structure MarkovComposer where
  order : Nat
  melody : TransTable
  bass : TransTable
  deriving DecidableEq, Repr

/-- `MarkovComposer.__init__`: both transition tables start empty. -/
def MarkovComposer.new (order : Nat) : MarkovComposer :=
  ⟨order, [], []⟩

/-- Classification result of a track. -/
inductive Voice where
  | melody
  | bass
  | other
  deriving DecidableEq, Repr

/-- The loop state of `_classify_track`: collected pitches, running min
(initialized to 128) and max (initialized to -1) and the percussion flag. -/
structure ScanAcc where
  notes : List Nat
  min_pitch : Int
  max_pitch : Int
  is_percussion : Bool
  deriving DecidableEq, Repr

/-- One iteration of the scan loop of `_classify_track`: a program_change on
channel 9 or with program >= 112 sets the percussion flag; a note_on with
velocity > 0 is collected and updates the running min and max. -/
def classifyScan (acc : ScanAcc) (m : Msg) : ScanAcc :=
  match m with
  | .program_change program channel =>
      if channel = 9 ∨ 112 ≤ program then { acc with is_percussion := true } else acc
  | .note_on note velocity _ _ =>
      if 0 < velocity then
        { notes := acc.notes ++ [note]
          min_pitch := if (note : Int) < acc.min_pitch then (note : Int) else acc.min_pitch
          max_pitch := if acc.max_pitch < (note : Int) then (note : Int) else acc.max_pitch
          is_percussion := acc.is_percussion }
      else acc
  | _ => acc

/-- `_classify_track`: scan the events, then classify from the collected
pitches, the pitch range and the percussion flag. -/
def classify_track (track : List Msg) : Voice :=
  let acc := track.foldl classifyScan ⟨[], 128, -1, false⟩
  if acc.notes = [] then .other
  else if acc.is_percussion then .other
  else
    let average_pitch : ℚ := ((acc.notes.map (fun n => (n : ℚ))).sum) / (acc.notes.length : ℚ)
    let pitch_range : Int := acc.max_pitch - acc.min_pitch
    if average_pitch < 48 ∧ pitch_range < 24 ∧ 10 < acc.notes.length then .bass
    else if 60 ≤ average_pitch ∧ 12 < pitch_range ∧ 20 < acc.notes.length then .melody
    else .other

/-- `_extract_notes_from_track`: every note_on pitch with velocity > 0, in
event order. -/
def extract_notes_from_track (track : List Msg) : List Nat :=
  track.filterMap (fun m =>
    match m with
    | .note_on note velocity _ _ => if 0 < velocity then some note else none
    | _ => none)

/-- Whether a message is a note_on or note_off (the skip test in `train`). -/
def has_note_msg (m : Msg) : Bool :=
  match m with
  | .note_on _ _ _ _ => true
  | .note_off _ _ _ _ => true
  | _ => false

/-- The per-track body of `train`: skip tracks with no note messages, route
extracted notes into the melody or bass accumulator by classification. -/
def routeTrack (acc : List Nat × List Nat) (track : List Msg) : List Nat × List Nat :=
  if ¬ track.any has_note_msg then acc
  else
    match classify_track track with
    | .melody => (acc.1 ++ extract_notes_from_track track, acc.2)
    | .bass => (acc.1, acc.2 ++ extract_notes_from_track track)
    | .other => acc

/-- The file loop of `train`: accumulate melody and bass notes across all
files (a file is its list of tracks, already parsed by the external MIDI
reader). -/
def collectNotes (files : List (List (List Msg))) : List Nat × List Nat :=
  files.foldl (fun acc tracks => tracks.foldl routeTrack acc) ([], [])

/-- `train(midi_files)`: collect notes, then call `_build_transitions` for
each voice whose note list is non-empty (an empty list only logs). Note the
tables are NOT reset: `_build_transitions` mutates the existing
`self.transitions[track_type]`. -/
def train (c : MarkovComposer) (files : List (List (List Msg))) : MarkovComposer :=
  let notes := collectNotes files
  let c1 := if notes.1 = [] then c
            else { c with melody := build_transitions c.order c.melody notes.1 }
  if notes.2 = [] then c1
  else { c1 with bass := build_transitions c1.order c1.bass notes.2 }

/-- `self.note_durations`. -/
def note_durations : List Nat := [480, 240, 120, 360, 60]

/-- `self.duration_weights`. -/
def duration_weights : List ℚ := [4/10, 3/10, 2/10, 5/100, 5/100]

/-- `random.choices(keys, weights, k=1)[0]` given the uniform draw scaled by
the total weight: cumulative sampling, returning the first element whose
cumulative weight exceeds the draw, the last element as fallback. -/
def weightedPick : List (Nat × ℚ) → ℚ → Nat
  | [], _ => 0
  | [p], _ => p.1
  | p :: q :: rest, r => if r < p.2 then p.1 else weightedPick (q :: rest) (r - p.2)

/-- The process-wide random generator, as streams indexed by the loop
iteration: `state_choice` for `random.choice` re-picks, `note_u` and `dur_u`
as draws for the two `random.choices` calls, `vel_u` for `random.randint`,
and `init_choice` for the initial `random.choice`. -/
structure Oracle where
  init_choice : Nat
  state_choice : Nat → Nat
  note_u : Nat → ℚ
  dur_u : Nat → ℚ
  vel_u : Nat → Nat

/-- The loop state of `_generate_track`: the track being appended to, the
`generated_notes` list, the `current_state`, and whether the local variable
`channel` has been assigned (None models it unbound). -/
structure GenState where
  track : List Msg
  generated_notes : List Nat
  current_state : State
  channel_assigned : Option Nat
  deriving Repr

/-- One iteration of the generation loop of `_generate_track`: if the
current state has no transitions, re-pick a random initial state and
continue; otherwise sample next note, duration and velocity, append a
note_on for the new note and a note_off for the previous last note, extend
`generated_notes` and advance the state to the last `order` notes. -/
def genStep (order : Nat) (transitions : TransTable) (initial_states : List State)
    (channel min_velocity max_velocity : Nat) (o : Oracle) (gs : GenState) (t : Nat) :
    GenState :=
  let opts := (alookup transitions gs.current_state).getD []
  if opts = [] then
    { gs with current_state :=
        initial_states.getD (o.state_choice t % initial_states.length) [] }
  else
    let next_note := weightedPick opts (o.note_u t)
    let note_duration := weightedPick (note_durations.zip duration_weights) (o.dur_u t)
    let velocity := min_velocity + o.vel_u t % (max_velocity - min_velocity + 1)
    let gn := gs.generated_notes ++ [next_note]
    { track := gs.track ++
        [Msg.note_on next_note velocity note_duration channel,
         Msg.note_off (gs.generated_notes.getLastD 0) velocity 0 channel]
      generated_notes := gn
      current_state := gn.drop (gn.length - order)
      channel_assigned := some channel }

/-- The body of `_generate_track` up to the closing note-off: pick the
initial state with `random.choice` (its index stream taken modulo the key
count), seed `generated_notes` with it, and run the generation loop
`length` times. -/
def genLoop (order : Nat) (transitions : TransTable)
    (channel length min_velocity max_velocity : Nat) (o : Oracle) (track : List Msg) :
    GenState :=
  let initial_states := transitions.map (fun e => e.1)
  let s0 := initial_states.getD (o.init_choice % initial_states.length) []
  (List.range length).foldl
    (genStep order transitions initial_states channel min_velocity max_velocity o)
    ⟨track, s0, s0, none⟩

/-- `_generate_track(track, track_type, length, min_velocity, max_velocity)`
with `channel` precomputed from the track type (0 for melody, 1 for bass,
constant through the loop). Returns the final content of the mutated track;
an `UnboundLocalError` is raised by the closing note_off when the loop never
assigned `channel`. -/
def generate_track (order : Nat) (transitions : TransTable) (channel : Nat)
    (length min_velocity max_velocity : Nat) (o : Oracle) (track : List Msg) :
    Except String (List Msg) :=
  if transitions.map (fun e => e.1) = [] then .ok track
  else
    let gsF := genLoop order transitions channel length min_velocity max_velocity o track
    match gsF.channel_assigned with
    | none => .error "UnboundLocalError: channel"
    | some ch => .ok (gsF.track ++ [Msg.note_off (gsF.generated_notes.getLastD 0) 0 0 ch])

/-- `mido.bpm2tempo`: microseconds per beat (integer division; mido rounds,
which agrees on every tempo the program uses). -/
def bpm2tempo (bpm : Nat) : Nat := 60000000 / bpm

/-- `generate_music(length, output_path, tempo)`: `none` models the early
return with no file written (both tables empty); `some (.error e)` models a
propagated exception (no file written); `some (.ok tracks)` models the saved
container, whose tracks are melody then bass, each starting with set_tempo
and a program_change (melody: program 73 channel 0, bass: program 33
channel 1). A voice with an empty table is skipped. -/
def generate_music (c : MarkovComposer) (length tempo : Nat) (om ob : Oracle) :
    Option (Except String (List (List Msg))) :=
  if c.melody = [] ∧ c.bass = [] then none
  else
    let melody_track : List Msg := [.set_tempo (bpm2tempo tempo), .program_change 73 0]
    let bass_track : List Msg := [.set_tempo (bpm2tempo tempo), .program_change 33 1]
    let mres := if c.melody = [] then .ok melody_track
                else generate_track c.order c.melody 0 length 30 60 om melody_track
    match mres with
    | .error e => some (.error e)
    | .ok mt =>
        let bres := if c.bass = [] then .ok bass_track
                    else generate_track c.order c.bass 1 length 40 80 ob bass_track
        match bres with
        | .error e => some (.error e)
        | .ok bt => some (.ok [mt, bt])

/-! Concrete material used by the theorems below. -/

/-- A track consisting of the given pitches as note_on events (velocity 64,
time 0, channel 0), for building concrete training inputs. -/
def pitchTrack (ps : List Nat) : List Msg :=
  ps.map (fun p => Msg.note_on p 64 0 0)

/-- A fixed oracle (all streams constantly zero) for concrete runs. -/
def oracle0 : Oracle :=
  ⟨0, fun _ => 0, fun _ => 0, fun _ => 0, fun _ => 0⟩

/-- Number of note_on events in a track. -/
def noteOnCount (track : List Msg) : Nat :=
  track.countP (fun m => match m with | .note_on _ _ _ _ => true | _ => false)

/-- The pitches of a track's note_on events in order, regardless of
velocity: exactly the notes the generation loop has emitted. -/
def noteOnPitches (track : List Msg) : List Nat :=
  track.filterMap (fun m =>
    match m with
    | .note_on note _ _ _ => some note
    | _ => none)

/-- The pitch of the last note_on event of a track, if any: the last
generated pitch of a generated track. -/
def lastNoteOn (track : List Msg) : Option Nat :=
  (noteOnPitches track).getLast?

/-- Whether a message is a note_on or note_off on the given channel. -/
def isNoteEventOn (ch : Nat) (m : Msg) : Bool :=
  match m with
  | .note_on _ _ _ c => c == ch
  | .note_off _ _ _ c => c == ch
  | _ => false

/-- A 24-note melody track cycling 60, 62, 75 (avg 65.67, range 15): the
first training corpus for the re-training experiment. -/
def trackA : List Msg := pitchTrack ((List.replicate 8 [60, 62, 75]).flatten)

/-- A 24-note melody track cycling 60, 62, 76 (avg 66, range 16): the second
training corpus for the re-training experiment. -/
def trackB : List Msg := pitchTrack ((List.replicate 8 [60, 62, 76]).flatten)

/-- The alternative build described by the claim: accumulate raw
(state, next) counts file by file — each file contributing only its own
windows — and normalize once at the end. -/
def perFileTable (order : Nat) (files : List (List Nat)) : TransTable :=
  normalizeTable (files.foldl (accumulateCounts order) [])

/-- The (state, next-pitch) windows of a pitch sequence, one per counting
iteration of `_build_transitions`. -/
def windowsOf (order : Nat) (notes : List Nat) : List (State × Nat) :=
  (List.range (notes.length - order)).map
    (fun i => ((notes.drop i).take order, notes.getD (i + order) 0))

/-- The raw count stored in a count table for (state, next), 0 when absent:
the mapping semantics of the nested dict. -/
def getCount (m : TransTable) (s : State) (n : Nat) : ℚ :=
  (alookup ((alookup m s).getD []) n).getD 0

/-- The invariant of the counting phase: every present state has at least
one successor and all stored values are positive. -/
def tablePos (m : TransTable) : Prop :=
  ∀ e ∈ m, e.2 ≠ [] ∧ ∀ p ∈ e.2, 0 < p.2

/-- The percussion test as the claim words it: some program_change on
channel 9 or with program at least 112. -/
def spec_percussion (track : List Msg) : Bool :=
  track.any (fun m =>
    match m with
    | .program_change program channel => channel == 9 || decide (112 ≤ program)
    | _ => false)

/-- The classifier as the claim words it: collect the note_on pitches with
positive velocity; classify other when there are none or the percussion test
holds; else bass, melody or other by the threshold formulas on the mean
pitch, the pitch range (maximum pitch seen minus minimum pitch seen, with
the scan sentinels 128 and -1) and the note count. -/
def spec_classify (track : List Msg) : Voice :=
  let pitches := extract_notes_from_track track
  if pitches = [] ∨ spec_percussion track then .other
  else
    let average_pitch : ℚ := ((pitches.map (fun n => (n : ℚ))).sum) / (pitches.length : ℚ)
    let max_seen : Int := pitches.foldl (fun a n => max a (n : Int)) (-1)
    let min_seen : Int := pitches.foldl (fun a n => min a (n : Int)) 128
    let pitch_range : Int := max_seen - min_seen
    if average_pitch < 48 ∧ pitch_range < 24 ∧ 10 < pitches.length then .bass
    else if 60 ≤ average_pitch ∧ 12 < pitch_range ∧ 20 < pitches.length then .melody
    else .other

/-- The pitch sequence 60, 62, 64 repeated 30 times. -/
def cycleNotes : List Nat := (List.replicate 30 [60, 62, 64]).flatten

/-- The transition table the claim predicts for `cycleNotes` at order 2. -/
def cycleTable : TransTable :=
  [([60, 62], [(64, 1)]), ([62, 64], [(60, 1)]), ([64, 60], [(62, 1)])]

/-- The three states of the 60, 62, 64 cycle (the keys of `cycleTable`). -/
def cycleStates : List State := [[60, 62], [62, 64], [64, 60]]

/-- The unique pitch following a cycle state in the 60, 62, 64 cycle. -/
def cycleNext : State → Nat
  | [60, 62] => 64
  | [62, 64] => 60
  | _ => 62

/-- Advancing a cycle state by one emitted pitch. -/
def cycleShift (s : State) : State := [s.getD 1 0, cycleNext s]

/-- The cycle state reached after n emissions from s. -/
def stateAfter (s : State) : Nat → State
  | 0 => s
  | n + 1 => cycleShift (stateAfter s n)

/-- The pitch sequence obtained by continuing the 60, 62, 64 cycle for n
further pitches from state s: the claim's expected generation output. -/
def cycleExt (s : State) : Nat → List Nat
  | 0 => s
  | n + 1 => cycleExt s n ++ [cycleNext (stateAfter s n)]

/-- The generation loop of `_generate_track` run on the cycle table for n
iterations from start state s. -/
def cycleRun (o : Oracle) (s : State) (trackIn : List Msg) (n : Nat) : GenState :=
  (List.range n).foldl (genStep 2 cycleTable cycleStates 0 30 60 o) ⟨trackIn, s, s, none⟩

/-! Theorems. -/

/-- C5: for every pitch sequence shorter than order + 1, `_build_transitions`
returns early, leaving the table exactly as it was — in particular an empty
table stays empty — and, being total, it raises nothing. -/
theorem build_transitions_short_input (order : Nat) (m : TransTable) (notes : List Nat)
    (h : notes.length < order + 1) :
    build_transitions order m notes = m ∧ build_transitions order [] notes = [] := by
  constructor <;> simp [build_transitions, h]

/-- Witness for C5 at order 2 on the 2-note sequence [60, 62]. -/
theorem build_transitions_short_input_witness :
    ([60, 62] : List Nat).length < 2 + 1 ∧
      (build_transitions 2 [([50], [(51, 1)])] [60, 62] = [([50], [(51, 1)])] ∧
        build_transitions 2 [] [60, 62] = []) :=
  ⟨by decide, build_transitions_short_input 2 [([50], [(51, 1)])] [60, 62] (by decide)⟩

/-- C10: on every non-empty transition table, `_generate_track` with
length = 0 skips the generation loop, so the local variable `channel` is
never assigned and the closing note-off raises UnboundLocalError; no event
is emitted. -/
theorem generate_track_length_zero_raises (order : Nat) (transitions : TransTable)
    (channel min_velocity max_velocity : Nat) (o : Oracle) (track : List Msg)
    (h : transitions ≠ []) :
    generate_track order transitions channel 0 min_velocity max_velocity o track =
      .error "UnboundLocalError: channel" := by
  have h2 : transitions.map (fun e => e.1) ≠ [] := by simpa using h
  simp [generate_track, genLoop, h2]

/-- Witness for C10 on a concrete one-state table. -/
theorem generate_track_length_zero_raises_witness :
    ([([60, 62], [(64, 1)])] : TransTable) ≠ [] ∧
      generate_track 2 [([60, 62], [(64, 1)])] 0 0 30 60 oracle0 [] =
        .error "UnboundLocalError: channel" :=
  ⟨by decide,
    generate_track_length_zero_raises 2 [([60, 62], [(64, 1)])] 0 30 60 oracle0 []
      (by decide)⟩

/-- C7 (code bug): `train` never resets `self.transitions`, so a second call
to `train` increments raw counts on top of the previous call's normalized
probabilities and re-normalizes the mixture. After training on corpus A
(60,62,75 cycle) and then on corpus B (60,62,76 cycle), state (60, 62) maps
to the mixture 75: 1/9, 76: 8/9, whereas a freshly constructed composer
trained only on B maps it to 76: 1; the claimed full rebuild fails. -/
theorem retrain_accumulates_not_rebuilds :
    alookup (train (train (MarkovComposer.new 2) [[trackA]]) [[trackB]]).melody [60, 62] =
      some [(75, 1/9), (76, 8/9)] ∧
    alookup (train (MarkovComposer.new 2) [[trackB]]).melody [60, 62] = some [(76, 1)] ∧
    (train (train (MarkovComposer.new 2) [[trackA]]) [[trackB]]).melody ≠
      (train (MarkovComposer.new 2) [[trackB]]).melody := by
  set_option maxRecDepth 8000 in
  refine ⟨?_, ?_, ?_⟩ <;> with_unfolding_all decide

/-- C6: generation from an empty table emits zero events and does not raise
(the track is returned unchanged), and when both voices have empty tables
`generate_music` returns having written nothing. -/
theorem generation_empty_table_noop :
    (∀ order channel length min_velocity max_velocity o track,
      generate_track order [] channel length min_velocity max_velocity o track = .ok track) ∧
    ∀ c : MarkovComposer, ∀ length tempo om ob, c.melody = [] → c.bass = [] →
      generate_music c length tempo om ob = none := by
  constructor
  · intro order channel length min_velocity max_velocity o track
    rfl
  · intro c length tempo om ob hm hb
    simp [generate_music, hm, hb]

/-- Witness for C6 on a freshly constructed composer. -/
theorem generation_empty_table_noop_witness :
    (MarkovComposer.new 2).melody = [] ∧ (MarkovComposer.new 2).bass = [] ∧
      generate_music (MarkovComposer.new 2) 200 120 oracle0 oracle0 = none :=
  ⟨rfl, rfl, generation_empty_table_noop.2 (MarkovComposer.new 2) 200 120 oracle0 oracle0 rfl rfl⟩

/-- Counterexample to C8: with order 2 and the two files [60, 62, 64] and
[70, 72, 74], the table the code builds from the concatenation contains the
boundary-spanning state (62, 64), which per-file count accumulation does not
produce, and which disappears when the two files are concatenated in the
other order — so building from the concatenation is neither equivalent to
per-file accumulation nor independent of file order. -/
theorem concat_build_counterexample :
    alookup (build_transitions 2 [] ([60, 62, 64] ++ [70, 72, 74])) [62, 64] =
      some [(70, 1)] ∧
    alookup (perFileTable 2 [[60, 62, 64], [70, 72, 74]]) [62, 64] = none ∧
    alookup (build_transitions 2 [] ([70, 72, 74] ++ [60, 62, 64])) [62, 64] = none := by
  refine ⟨?_, ?_, ?_⟩ <;> with_unfolding_all decide

theorem alookup_aupdate_self {α β : Type} [DecidableEq α]
    (m : List (α × β)) (k : α) (d : β) (f : β → β) :
    alookup (aupdate m k d f) k = some (f ((alookup m k).getD d)) := by
  induction m with
  | nil => simp [alookup, aupdate]
  | cons e rest ih =>
      by_cases h : k = e.1
      · simp [alookup, aupdate, h]
      · simp [alookup, aupdate, h, ih]

theorem alookup_aupdate_ne {α β : Type} [DecidableEq α]
    (m : List (α × β)) (k : α) (d : β) (f : β → β) (k' : α) (h : k' ≠ k) :
    alookup (aupdate m k d f) k' = alookup m k' := by
  induction m with
  | nil => simp [alookup, aupdate, h]
  | cons e rest ih =>
      by_cases he : k = e.1
      · subst he
        simp [alookup, aupdate, h]
      · by_cases he' : k' = e.1 <;> simp [alookup, aupdate, he, he', ih]

theorem getCount_incr (m : TransTable) (s : State) (n : Nat) (s' : State) (n' : Nat) :
    getCount (incr m s n) s' n' =
      getCount m s' n' + if s = s' ∧ n = n' then 1 else 0 := by
  by_cases hs : s = s'
  · subst hs
    unfold getCount incr
    rw [alookup_aupdate_self]
    by_cases hn : n = n'
    · subst hn
      simp [alookup_aupdate_self]
    · simp [alookup_aupdate_ne _ _ _ _ _ (fun h => hn h.symm), hn]
  · unfold getCount incr
    rw [alookup_aupdate_ne _ _ _ _ _ (fun h => hs h.symm)]
    simp [hs]

theorem getCount_foldl_incr (ws : List (State × Nat)) (m : TransTable) (s : State) (n : Nat) :
    getCount (ws.foldl (fun t w => incr t w.1 w.2) m) s n =
      getCount m s n + (ws.countP (fun w => decide (w = (s, n))) : ℚ) := by
  induction ws generalizing m with
  | nil => simp
  | cons w ws ih =>
      rw [List.foldl_cons, ih, getCount_incr, List.countP_cons]
      by_cases h : w = (s, n)
      · subst h
        simp
        ring
      · have h2 : ¬ (w.1 = s ∧ w.2 = n) := fun hc => h (Prod.ext hc.1 hc.2)
        simp [h, h2]

/-- C8 amended: the counts the code accumulates are exactly one increment
per window of the single concatenated pitch sequence (so windows spanning
file boundaries are included), and this accumulation is commutative at the
window level: permuting the windows leaves every stored count unchanged.
It is not, however, per-file accumulation, and the table is not independent
of the order of the files (see the counterexample). -/
theorem accumulation_by_windows (order : Nat) :
    (∀ m notes, accumulateCounts order m notes =
      (windowsOf order notes).foldl (fun t w => incr t w.1 w.2) m) ∧
    ∀ ws ws' : List (State × Nat), ws.Perm ws' → ∀ m s n,
      getCount (ws.foldl (fun t w => incr t w.1 w.2) m) s n =
        getCount (ws'.foldl (fun t w => incr t w.1 w.2) m) s n := by
  constructor
  · intro m notes
    rw [windowsOf, List.foldl_map]
    rfl
  · intro ws ws' hperm m s n
    rw [getCount_foldl_incr, getCount_foldl_incr, hperm.countP_eq]

/-- Witness for C8 amended: two swapped windows accumulate to the same
counts. -/
theorem accumulation_by_windows_witness :
    ([([60, 62], 64), ([62, 64], 60)] : List (State × Nat)).Perm
        [([62, 64], 60), ([60, 62], 64)] ∧
      getCount (([([60, 62], 64), ([62, 64], 60)] : List (State × Nat)).foldl
          (fun t w => incr t w.1 w.2) []) [60, 62] 64 =
        getCount (([([62, 64], 60), ([60, 62], 64)] : List (State × Nat)).foldl
          (fun t w => incr t w.1 w.2) []) [60, 62] 64 :=
  ⟨by decide,
    (accumulation_by_windows 2).2 [([60, 62], 64), ([62, 64], 60)]
      [([62, 64], 60), ([60, 62], 64)] (by decide) [] [60, 62] 64⟩

theorem aupdate_ne_nil {α β : Type} [DecidableEq α] (m : List (α × β)) (k : α) (d : β)
    (f : β → β) : aupdate m k d f ≠ [] := by
  cases m with
  | nil => simp [aupdate]
  | cons e rest => by_cases h : k = e.1 <;> simp [aupdate, h]

theorem mem_aupdate_succ_pos (d : NoteDist) (n : Nat) (hd : ∀ p ∈ d, 0 < p.2) :
    ∀ p ∈ aupdate d n 0 (fun c => c + 1), 0 < p.2 := by
  induction d with
  | nil =>
      intro p hp
      simp [aupdate] at hp
      subst hp
      norm_num
  | cons e rest ih =>
      by_cases h : n = e.1
      · intro p hp
        simp only [aupdate, if_pos h] at hp
        rcases List.mem_cons.1 hp with rfl | hp
        · have := hd e (List.mem_cons_self e rest)
          simpa using by linarith
        · exact hd p (List.mem_cons_of_mem e hp)
      · intro p hp
        simp only [aupdate, if_neg h] at hp
        rcases List.mem_cons.1 hp with rfl | hp
        · exact hd p (List.mem_cons_self p rest)
        · exact ih (fun q hq => hd q (List.mem_cons_of_mem e hq)) p hp

theorem tablePos_incr (s : State) (n : Nat) :
    ∀ m : TransTable, tablePos m → tablePos (incr m s n) := by
  intro m
  induction m with
  | nil =>
      intro _ e he
      simp only [incr, aupdate] at he
      rcases List.mem_cons.1 he with rfl | he
      · refine ⟨by simp, ?_⟩
        intro p hp
        simp at hp
        subst hp
        norm_num
      · simp at he
  | cons e0 rest ih =>
      intro h e he
      by_cases hk : s = e0.1
      · simp only [incr, aupdate, if_pos hk] at he
        rcases List.mem_cons.1 he with rfl | he
        · exact ⟨aupdate_ne_nil _ _ _ _,
            mem_aupdate_succ_pos e0.2 n (h e0 (List.mem_cons_self e0 rest)).2⟩
        · exact h e (List.mem_cons_of_mem e0 he)
      · simp only [incr, aupdate, if_neg hk] at he
        rcases List.mem_cons.1 he with rfl | he
        · exact h e (List.mem_cons_self e rest)
        · exact ih (fun q hq => h q (List.mem_cons_of_mem e0 hq)) e he

theorem tablePos_foldl (order : Nat) (notes : List Nat) :
    ∀ (l : List Nat) (m : TransTable), tablePos m →
      tablePos (l.foldl (slideStep order notes) m) := by
  intro l
  induction l with
  | nil => intro m h; exact h
  | cons i l ih => intro m h; exact ih _ (tablePos_incr _ _ _ h)

theorem normalizeTable_sum_one (m : TransTable) (h : tablePos m) :
    ∀ e ∈ normalizeTable m, e.2 ≠ [] ∧ (e.2.map (fun p => p.2)).sum = 1 := by
  intro e he
  simp only [normalizeTable, List.mem_map] at he
  obtain ⟨e0, he0, rfl⟩ := he
  obtain ⟨hne, hpos⟩ := h e0 he0
  have hTpos : 0 < (e0.2.map (fun p => p.2)).sum := by
    apply List.sum_pos
    · intro x hx
      rw [List.mem_map] at hx
      obtain ⟨p, hp, rfl⟩ := hx
      exact hpos p hp
    · simpa using hne
  constructor
  · simpa using hne
  · rw [List.map_map]
    have hcomp : ((fun p : Nat × ℚ => p.2) ∘
        fun p : Nat × ℚ => (p.1, p.2 / (e0.2.map (fun p => p.2)).sum)) =
        fun p : Nat × ℚ => p.2 * ((e0.2.map (fun p => p.2)).sum)⁻¹ := by
      funext p
      simp [div_eq_mul_inv]
    rw [hcomp, List.sum_map_mul_right, mul_inv_cancel₀ (ne_of_gt hTpos)]

theorem build_transitions_from_empty_normalized (order : Nat) (notes : List Nat) :
    ∀ e ∈ build_transitions order [] notes,
      e.2 ≠ [] ∧ (e.2.map (fun p => p.2)).sum = 1 := by
  intro e he
  rw [build_transitions] at he
  split at he
  · simp at he
  · exact normalizeTable_sum_one _
      (tablePos_foldl order notes _ [] (fun e h => absurd h (List.not_mem_nil e))) e he

/-- C1: after a single call to `train` on a fresh composer, every state
present in either trained table has a non-empty successor distribution whose
probabilities sum to exactly 1 (the floating-point sum is within tolerance
of this exact rational value). -/
theorem trained_tables_normalized (order : Nat) (files : List (List (List Msg)))
    (s : State) (d : NoteDist)
    (h : (s, d) ∈ (train (MarkovComposer.new order) files).melody ∨
         (s, d) ∈ (train (MarkovComposer.new order) files).bass) :
    d ≠ [] ∧ (d.map (fun p => p.2)).sum = 1 := by
  rcases h with h | h
  · simp only [train, MarkovComposer.new] at h
    split at h
    · split at h
      · simp at h
      · exact build_transitions_from_empty_normalized _ _ _ h
    · split at h
      · simp at h
      · exact build_transitions_from_empty_normalized _ _ _ h
  · simp only [train, MarkovComposer.new] at h
    split at h
    · split at h <;> simp at h
    · split at h <;> exact build_transitions_from_empty_normalized _ _ _ h

set_option maxRecDepth 8000 in
/-- Witness for C1: training once on the 60, 62, 75 corpus puts state
(60, 62) in the melody table with distribution 75 with probability 1. -/
theorem trained_tables_normalized_witness :
    ((([60, 62] : State), ([(75, 1)] : NoteDist)) ∈
        (train (MarkovComposer.new 2) [[trackA]]).melody ∨
      (([60, 62] : State), ([(75, 1)] : NoteDist)) ∈
        (train (MarkovComposer.new 2) [[trackA]]).bass) ∧
    (([(75, 1)] : NoteDist) ≠ [] ∧ (([(75, 1)] : NoteDist).map (fun p => p.2)).sum = 1) :=
  ⟨Or.inl (by with_unfolding_all decide),
    trained_tables_normalized 2 [[trackA]] [60, 62] [(75, 1)]
      (Or.inl (by with_unfolding_all decide))⟩

theorem ite_lt_eq_min (a b : Int) : (if b < a then b else a) = min a b := by
  rcases lt_or_le b a with h | h
  · rw [if_pos h, min_eq_right h.le]
  · rw [if_neg (not_lt.2 h), min_eq_left h]

theorem ite_lt_eq_max (a b : Int) : (if a < b then b else a) = max a b := by
  rcases lt_or_le a b with h | h
  · rw [if_pos h, max_eq_right h.le]
  · rw [if_neg (not_lt.2 h), max_eq_left h]

theorem classifyScan_foldl (track : List Msg) : ∀ acc : ScanAcc,
    track.foldl classifyScan acc =
      ⟨acc.notes ++ extract_notes_from_track track,
       (extract_notes_from_track track).foldl (fun a n => min a (n : Int)) acc.min_pitch,
       (extract_notes_from_track track).foldl (fun a n => max a (n : Int)) acc.max_pitch,
       acc.is_percussion || spec_percussion track⟩ := by
  induction track with
  | nil =>
      intro acc
      simp [extract_notes_from_track, spec_percussion]
  | cons m ms ih =>
      intro acc
      rw [List.foldl_cons, ih]
      cases m with
      | note_on note velocity time channel =>
          by_cases hv : 0 < velocity
          · simp [classifyScan, extract_notes_from_track, spec_percussion, hv,
              ite_lt_eq_min, ite_lt_eq_max]
          · simp [classifyScan, extract_notes_from_track, spec_percussion, hv]
      | note_off note velocity time channel =>
          simp [classifyScan, extract_notes_from_track, spec_percussion]
      | program_change program channel =>
          by_cases h9 : channel = 9
          · simp [classifyScan, extract_notes_from_track, spec_percussion, h9]
          · by_cases h112 : 112 ≤ program
            · simp [classifyScan, extract_notes_from_track, spec_percussion, h9, h112]
            · have hb : (channel == 9) = false := by simpa using h9
              simp [classifyScan, extract_notes_from_track, spec_percussion, h9, h112, hb]
      | set_tempo tempo =>
          simp [classifyScan, extract_notes_from_track, spec_percussion]

set_option maxRecDepth 8000 in
/-- C2: the track classifier is the pure function of the event sequence the
claim describes — it agrees with `spec_classify` on every track — and on the
two concrete scenarios: a 15-note non-percussion track with pitches in
[36, 47] and range 10 is classified bass, and a 30-note track with pitches
in [64, 84] and range 20 is classified melody. -/
theorem classifier_implements_spec :
    (∀ track, classify_track track = spec_classify track) ∧
    classify_track (pitchTrack (36 :: 46 :: List.replicate 13 40)) = .bass ∧
    classify_track (pitchTrack (64 :: 84 :: List.replicate 28 70)) = .melody := by
  refine ⟨?_, ?_, ?_⟩
  · intro track
    rw [classify_track, classifyScan_foldl]
    by_cases h1 : extract_notes_from_track track = []
    · simp [spec_classify, h1]
    · by_cases h2 : spec_percussion track
      · simp [spec_classify, h1, h2]
      · simp [spec_classify, h1, h2]
  · with_unfolding_all decide
  · with_unfolding_all decide

theorem alookup_mem {α β : Type} [DecidableEq α] (m : List (α × β)) (k : α) (v : β)
    (h : alookup m k = some v) : (k, v) ∈ m := by
  induction m with
  | nil => simp [alookup] at h
  | cons e rest ih =>
      rw [alookup] at h
      by_cases hk : k = e.1
      · rw [if_pos hk] at h
        obtain rfl : e.2 = v := Option.some.inj h
        subst hk
        exact List.mem_cons_self _ _
      · rw [if_neg hk] at h
        exact List.mem_cons_of_mem e (ih h)

theorem alookup_of_mem_keys {α β : Type} [DecidableEq α] (m : List (α × β)) (k : α)
    (h : k ∈ m.map (fun e => e.1)) : ∃ v, alookup m k = some v := by
  induction m with
  | nil => simp at h
  | cons e rest ih =>
      by_cases hk : k = e.1
      · exact ⟨e.2, by simp [alookup, hk]⟩
      · rw [List.map_cons] at h
        rcases List.mem_cons.1 h with h | h
        · exact absurd h hk
        · obtain ⟨v, hv⟩ := ih h
          exact ⟨v, by simp [alookup, hk, hv]⟩

theorem getD_mem {α : Type} (l : List α) (i : Nat) (d : α) (h : i < l.length) :
    l.getD i d ∈ l := by
  rw [List.getD_eq_getElem?_getD, List.getElem?_eq_getElem h, Option.getD_some]
  exact List.getElem_mem h

theorem genStep_shape (order : Nat) (transitions : TransTable)
    (initial_states : List State) (channel min_velocity max_velocity : Nat) (o : Oracle)
    (gs : GenState) (t : Nat) :
    ∃ extra,
      (genStep order transitions initial_states channel min_velocity max_velocity o gs t).track
          = gs.track ++ extra ∧
      (∀ m ∈ extra, isNoteEventOn channel m = true) ∧
      noteOnCount extra ≤ 1 ∧
      ((genStep order transitions initial_states channel min_velocity max_velocity o gs
            t).channel_assigned = gs.channel_assigned ∨
        (genStep order transitions initial_states channel min_velocity max_velocity o gs
            t).channel_assigned = some channel) := by
  by_cases h : (alookup transitions gs.current_state).getD [] = []
  · refine ⟨[], ?_, by simp, by simp [noteOnCount], .inl ?_⟩ <;> simp [genStep, h]
  · refine ⟨[Msg.note_on
        (weightedPick ((alookup transitions gs.current_state).getD []) (o.note_u t))
        (min_velocity + o.vel_u t % (max_velocity - min_velocity + 1))
        (weightedPick (note_durations.zip duration_weights) (o.dur_u t)) channel,
      Msg.note_off (gs.generated_notes.getLastD 0)
        (min_velocity + o.vel_u t % (max_velocity - min_velocity + 1)) 0 channel],
      ?_, ?_, ?_, .inr ?_⟩
    · simp [genStep, h]
    · intro m hm
      rcases List.mem_cons.1 hm with rfl | hm
      · simp [isNoteEventOn]
      · rcases List.mem_cons.1 hm with rfl | hm
        · simp [isNoteEventOn]
        · simp at hm
    · simp [noteOnCount, List.countP_cons, isNoteEventOn]
    · simp [genStep, h]

theorem genFold_shape (order : Nat) (transitions : TransTable)
    (initial_states : List State) (channel min_velocity max_velocity : Nat) (o : Oracle) :
    ∀ (l : List Nat) (gs : GenState),
      ∃ extra,
        ((l.foldl (genStep order transitions initial_states channel min_velocity
              max_velocity o) gs).track = gs.track ++ extra ∧
          (∀ m ∈ extra, isNoteEventOn channel m = true) ∧
          noteOnCount extra ≤ l.length) ∧
        ((l.foldl (genStep order transitions initial_states channel min_velocity
              max_velocity o) gs).channel_assigned = gs.channel_assigned ∨
          (l.foldl (genStep order transitions initial_states channel min_velocity
              max_velocity o) gs).channel_assigned = some channel) := by
  intro l
  induction l with
  | nil =>
      intro gs
      exact ⟨[], ⟨by simp, by simp, by simp [noteOnCount]⟩, .inl rfl⟩
  | cons t l ih =>
      intro gs
      obtain ⟨e1, he1, hp1, hc1, hch1⟩ :=
        genStep_shape order transitions initial_states channel min_velocity max_velocity o gs t
      obtain ⟨e2, ⟨he2, hp2, hc2⟩, hch2⟩ :=
        ih (genStep order transitions initial_states channel min_velocity max_velocity o gs t)
      refine ⟨e1 ++ e2, ⟨?_, ?_, ?_⟩, ?_⟩
      · rw [List.foldl_cons, he2, he1, List.append_assoc]
      · intro m hm
        rcases List.mem_append.1 hm with h | h
        exacts [hp1 m h, hp2 m h]
      · have hsum : noteOnCount (e1 ++ e2) = noteOnCount e1 + noteOnCount e2 :=
          List.countP_append _ _ _
        simp only [List.length_cons]
        omega
      · rcases hch2 with h2 | h2
        · rw [List.foldl_cons, h2]
          exact hch1
        · exact .inr (by rw [List.foldl_cons]; exact h2)

theorem genStep_emits (order : Nat) (transitions : TransTable)
    (initial_states : List State) (channel min_velocity max_velocity : Nat) (o : Oracle)
    (gs : GenState) (t : Nat)
    (h : (alookup transitions gs.current_state).getD [] ≠ []) :
    (genStep order transitions initial_states channel min_velocity max_velocity o gs
        t).channel_assigned = some channel := by
  simp [genStep, h]

theorem genFold_channel_some (order : Nat) (transitions : TransTable)
    (initial_states : List State) (channel min_velocity max_velocity : Nat) (o : Oracle) :
    ∀ (l : List Nat) (gs : GenState), gs.channel_assigned = some channel →
      (l.foldl (genStep order transitions initial_states channel min_velocity
          max_velocity o) gs).channel_assigned = some channel := by
  intro l
  induction l with
  | nil => intro gs h; exact h
  | cons t l ih =>
      intro gs h
      rw [List.foldl_cons]
      apply ih
      obtain ⟨e, _, _, _, hch⟩ :=
        genStep_shape order transitions initial_states channel min_velocity max_velocity o gs t
      rcases hch with hc | hc
      · rw [hc, h]
      · exact hc

theorem noteOnPitches_append (l1 l2 : List Msg) :
    noteOnPitches (l1 ++ l2) = noteOnPitches l1 ++ noteOnPitches l2 :=
  List.filterMap_append _ _ _

theorem genStep_lastNoteOn_emit (order : Nat) (transitions : TransTable)
    (initial_states : List State) (channel min_velocity max_velocity : Nat) (o : Oracle)
    (gs : GenState) (t : Nat)
    (h : ¬ (alookup transitions gs.current_state).getD [] = []) :
    (noteOnPitches (genStep order transitions initial_states channel min_velocity
        max_velocity o gs t).track).getLast? =
      some ((genStep order transitions initial_states channel min_velocity
        max_velocity o gs t).generated_notes.getLastD 0) := by
  have htrack : (genStep order transitions initial_states channel min_velocity
      max_velocity o gs t).track = gs.track ++
      [Msg.note_on (weightedPick ((alookup transitions gs.current_state).getD []) (o.note_u t))
        (min_velocity + o.vel_u t % (max_velocity - min_velocity + 1))
        (weightedPick (note_durations.zip duration_weights) (o.dur_u t)) channel,
      Msg.note_off (gs.generated_notes.getLastD 0)
        (min_velocity + o.vel_u t % (max_velocity - min_velocity + 1)) 0 channel] := by
    simp [genStep, h]
  have hnotes : (genStep order transitions initial_states channel min_velocity
      max_velocity o gs t).generated_notes = gs.generated_notes ++
      [weightedPick ((alookup transitions gs.current_state).getD []) (o.note_u t)] := by
    simp [genStep, h]
  rw [htrack, hnotes, noteOnPitches_append]
  have hx : noteOnPitches
      [Msg.note_on (weightedPick ((alookup transitions gs.current_state).getD []) (o.note_u t))
        (min_velocity + o.vel_u t % (max_velocity - min_velocity + 1))
        (weightedPick (note_durations.zip duration_weights) (o.dur_u t)) channel,
      Msg.note_off (gs.generated_notes.getLastD 0)
        (min_velocity + o.vel_u t % (max_velocity - min_velocity + 1)) 0 channel] =
      [weightedPick ((alookup transitions gs.current_state).getD []) (o.note_u t)] := rfl
  rw [hx, List.getLast?_concat, List.getLastD_concat]

theorem genStep_lastNoteOn (order : Nat) (transitions : TransTable)
    (initial_states : List State) (channel min_velocity max_velocity : Nat) (o : Oracle)
    (gs : GenState) (t : Nat)
    (h : (noteOnPitches gs.track).getLast? = some (gs.generated_notes.getLastD 0)) :
    (noteOnPitches (genStep order transitions initial_states channel min_velocity
        max_velocity o gs t).track).getLast? =
      some ((genStep order transitions initial_states channel min_velocity
        max_velocity o gs t).generated_notes.getLastD 0) := by
  by_cases hopt : (alookup transitions gs.current_state).getD [] = []
  · have htrack : (genStep order transitions initial_states channel min_velocity
        max_velocity o gs t).track = gs.track := by simp [genStep, hopt]
    have hnotes : (genStep order transitions initial_states channel min_velocity
        max_velocity o gs t).generated_notes = gs.generated_notes := by simp [genStep, hopt]
    rw [htrack, hnotes]
    exact h
  · exact genStep_lastNoteOn_emit order transitions initial_states channel min_velocity
      max_velocity o gs t hopt

theorem genFold_lastNoteOn (order : Nat) (transitions : TransTable)
    (initial_states : List State) (channel min_velocity max_velocity : Nat) (o : Oracle) :
    ∀ (l : List Nat) (gs : GenState),
      (noteOnPitches gs.track).getLast? = some (gs.generated_notes.getLastD 0) →
      (noteOnPitches ((l.foldl (genStep order transitions initial_states channel min_velocity
          max_velocity o) gs)).track).getLast? =
        some ((l.foldl (genStep order transitions initial_states channel min_velocity
          max_velocity o) gs).generated_notes.getLastD 0) := by
  intro l
  induction l with
  | nil => intro gs h; exact h
  | cons t l ih =>
      intro gs h
      rw [List.foldl_cons]
      exact ih _ (genStep_lastNoteOn order transitions initial_states channel min_velocity
        max_velocity o gs t h)

/-- Counterexample to C3: the claim quantifies over every length >= 0, but
with a non-empty table and length = 0 the generation loop never runs, the
local variable `channel` is never assigned and the closing note-off raises
UnboundLocalError, so no generated track ending in a velocity-0 note-off is
produced at all. -/
theorem generate_bound_counterexample :
    generate_track 2 [([40, 43], [(45, 1)])] 1 0 40 80 oracle0 [] =
      .error "UnboundLocalError: channel" := by
  with_unfolding_all rfl

/-- C3 amended: for every non-empty transition table whose states all have a
non-empty successor distribution (the invariant of trained tables) and every
length >= 1, `_generate_track` returns normally, emits at most `length`
note-on events beyond the incoming track (a state-miss iteration re-picks a
random initial state and emits nothing while still consuming an iteration),
and the returned track ends with a note-off of velocity 0 for the last
generated pitch: the closing note-off's pitch is exactly the pitch of the
track's last note-on event; for length = 0 it instead raises
UnboundLocalError (see the counterexample and C10). -/
theorem generate_track_emits_bounded (order : Nat) (transitions : TransTable)
    (channel length min_velocity max_velocity : Nat) (o : Oracle) (track : List Msg)
    (hne : transitions ≠ []) (hwf : ∀ e ∈ transitions, e.2 ≠ []) (hlen : 1 ≤ length) :
    ∃ tr, generate_track order transitions channel length min_velocity max_velocity o track
        = .ok tr ∧
      noteOnCount tr ≤ noteOnCount track + length ∧
      ∃ p, tr.getLast? = some (.note_off p 0 0 channel) ∧ lastNoteOn tr = some p := by
  have hkeys : transitions.map (fun e => e.1) ≠ [] := by simpa using hne
  obtain ⟨k, rfl⟩ : ∃ k, length = k + 1 := ⟨length - 1, by omega⟩
  simp only [generate_track, genLoop]
  rw [if_neg hkeys]
  generalize hs0 : (transitions.map (fun e => e.1)).getD
      (o.init_choice % (transitions.map (fun e => e.1)).length) [] = s0
  have hs0mem : s0 ∈ transitions.map (fun e => e.1) := by
    rw [← hs0]
    exact getD_mem _ _ _ (Nat.mod_lt _ (List.length_pos.2 hkeys))
  obtain ⟨d0, hd0⟩ := alookup_of_mem_keys transitions s0 hs0mem
  have hopts : (alookup transitions s0).getD [] ≠ [] := by
    rw [hd0]
    exact hwf (s0, d0) (alookup_mem _ _ _ hd0)
  have hch : ((List.range (k + 1)).foldl
      (genStep order transitions (transitions.map (fun e => e.1)) channel min_velocity
        max_velocity o) ⟨track, s0, s0, none⟩).channel_assigned = some channel := by
    rw [List.range_succ_eq_map, List.foldl_cons]
    exact genFold_channel_some _ _ _ _ _ _ _ _ _
      (genStep_emits _ _ _ _ _ _ _ _ _ hopts)
  obtain ⟨extra, ⟨htr, _, hcount⟩, _⟩ :=
    genFold_shape order transitions (transitions.map (fun e => e.1)) channel min_velocity
      max_velocity o (List.range (k + 1)) ⟨track, s0, s0, none⟩
  have hPF : (noteOnPitches (((List.range (k + 1)).foldl
      (genStep order transitions (transitions.map (fun e => e.1)) channel min_velocity
        max_velocity o) ⟨track, s0, s0, none⟩)).track).getLast? =
      some (((List.range (k + 1)).foldl
      (genStep order transitions (transitions.map (fun e => e.1)) channel min_velocity
        max_velocity o) ⟨track, s0, s0, none⟩).generated_notes.getLastD 0) := by
    rw [List.range_succ_eq_map, List.foldl_cons]
    exact genFold_lastNoteOn _ _ _ _ _ _ _ _ _
      (genStep_lastNoteOn_emit _ _ _ _ _ _ _ _ _ hopts)
  rw [hch]
  refine ⟨_, rfl, ?_, ?_⟩
  · rw [htr]
    have h1 : noteOnCount ((GenState.mk track s0 s0 none).track ++ extra ++
        [Msg.note_off (((List.range (k + 1)).foldl
          (genStep order transitions (transitions.map (fun e => e.1)) channel min_velocity
            max_velocity o) ⟨track, s0, s0, none⟩).generated_notes.getLastD 0) 0 0 channel]) =
        noteOnCount track + noteOnCount extra + 0 := by
      simp [noteOnCount, List.countP_append, List.countP_cons]
    rw [h1]
    rw [List.length_range] at hcount
    omega
  · refine ⟨_, List.getLast?_concat _, ?_⟩
    rw [lastNoteOn, noteOnPitches_append]
    have h0 : noteOnPitches [Msg.note_off (((List.range (k + 1)).foldl
        (genStep order transitions (transitions.map (fun e => e.1)) channel min_velocity
          max_velocity o) ⟨track, s0, s0, none⟩).generated_notes.getLastD 0) 0 0 channel] =
        [] := rfl
    rw [h0, List.append_nil]
    exact hPF

/-- Witness for C3 amended on a one-state table with length 1. -/
theorem generate_track_emits_bounded_witness :
    (([([60, 62], [(64, 1)])] : TransTable) ≠ [] ∧
      (∀ e ∈ ([([60, 62], [(64, 1)])] : TransTable), e.2 ≠ []) ∧ 1 ≤ 1) ∧
    (∃ tr, generate_track 2 [([60, 62], [(64, 1)])] 0 1 30 60 oracle0 [] = .ok tr ∧
      noteOnCount tr ≤ noteOnCount [] + 1 ∧
      ∃ p, tr.getLast? = some (.note_off p 0 0 0) ∧ lastNoteOn tr = some p) :=
  ⟨⟨by decide, by decide, by decide⟩,
    generate_track_emits_bounded 2 [([60, 62], [(64, 1)])] 0 1 30 60 oracle0 []
      (by decide) (by decide) (by decide)⟩

theorem generate_track_ok_shape (order : Nat) (transitions : TransTable)
    (channel length min_velocity max_velocity : Nat) (o : Oracle) (trackIn tr : List Msg)
    (h : generate_track order transitions channel length min_velocity max_velocity o trackIn
        = .ok tr) :
    ∃ rest, tr = trackIn ++ rest ∧ ∀ m ∈ rest, isNoteEventOn channel m = true := by
  by_cases hk : transitions.map (fun e => e.1) = []
  · rw [generate_track, if_pos hk] at h
    obtain rfl : trackIn = tr := Except.ok.inj h
    exact ⟨[], by simp, by simp⟩
  · simp only [generate_track, genLoop] at h
    rw [if_neg hk] at h
    generalize hs0 : (transitions.map (fun e => e.1)).getD
        (o.init_choice % (transitions.map (fun e => e.1)).length) [] = s0 at h
    obtain ⟨extra, ⟨htr, hprop, _⟩, hch⟩ :=
      genFold_shape order transitions (transitions.map (fun e => e.1)) channel min_velocity
        max_velocity o (List.range length) ⟨trackIn, s0, s0, none⟩
    split at h
    · simp at h
    · rename_i ch heq
      have hc : ch = channel := by
        rcases hch with h2 | h2
        · rw [heq] at h2
          cases h2
        · rw [heq] at h2
          exact Option.some.inj h2
      rw [hc] at h
      obtain rfl := Except.ok.inj h
      refine ⟨extra ++ [Msg.note_off (((List.range length).foldl
          (genStep order transitions (transitions.map (fun e => e.1)) channel min_velocity
            max_velocity o) ⟨trackIn, s0, s0, none⟩).generated_notes.getLastD 0) 0 0 channel],
        ?_, ?_⟩
      · rw [htr, List.append_assoc]
      · intro m hm
        rcases List.mem_append.1 hm with hmm | hmm
        · exact hprop m hmm
        · rcases List.mem_cons.1 hmm with rfl | hmm
          · simp [isNoteEventOn]
          · simp at hmm

/-- C9: whenever `generate_music` saves an output container, the container
has exactly two tracks, melody first and bass second; each begins with a
set_tempo meta-event then a program-change (melody: program 73 channel 0,
bass: program 33 channel 1), followed only by note-on/note-off events of
that voice on its channel. -/
theorem generate_music_container (c : MarkovComposer) (length tempo : Nat) (om ob : Oracle)
    (tracks : List (List Msg))
    (h : generate_music c length tempo om ob = some (.ok tracks)) :
    ∃ mrest brest,
      tracks = [[.set_tempo (bpm2tempo tempo), .program_change 73 0] ++ mrest,
                [.set_tempo (bpm2tempo tempo), .program_change 33 1] ++ brest] ∧
      (∀ m ∈ mrest, isNoteEventOn 0 m = true) ∧
      (∀ m ∈ brest, isNoteEventOn 1 m = true) := by
  simp only [generate_music] at h
  split at h
  · exact absurd h (by simp)
  · split at h
    · simp at h
    · rename_i mt heqm
      split at h
      · simp at h
      · rename_i bt heqb
        have h2 : ([mt, bt] : List (List Msg)) = tracks :=
          Except.ok.inj (Option.some.inj h)
        subst h2
        have hmt : ∃ mrest,
            mt = [Msg.set_tempo (bpm2tempo tempo), Msg.program_change 73 0] ++ mrest ∧
            ∀ m ∈ mrest, isNoteEventOn 0 m = true := by
          by_cases hm : c.melody = []
          · rw [if_pos hm] at heqm
            obtain rfl := Except.ok.inj heqm
            exact ⟨[], by simp, by simp⟩
          · rw [if_neg hm] at heqm
            exact generate_track_ok_shape _ _ _ _ _ _ _ _ _ heqm
        have hbt : ∃ brest,
            bt = [Msg.set_tempo (bpm2tempo tempo), Msg.program_change 33 1] ++ brest ∧
            ∀ m ∈ brest, isNoteEventOn 1 m = true := by
          by_cases hb : c.bass = []
          · rw [if_pos hb] at heqb
            obtain rfl := Except.ok.inj heqb
            exact ⟨[], by simp, by simp⟩
          · rw [if_neg hb] at heqb
            exact generate_track_ok_shape _ _ _ _ _ _ _ _ _ heqb
        obtain ⟨mrest, hmeq, hmprop⟩ := hmt
        obtain ⟨brest, hbeq, hbprop⟩ := hbt
        exact ⟨mrest, brest, by rw [hmeq, hbeq], hmprop, hbprop⟩

/-- Witness for C9: a composer with a one-state melody table and no bass
model, generating one note. -/
theorem generate_music_container_witness :
    generate_music ⟨2, [([60, 62], [(64, 1)])], []⟩ 1 120 oracle0 oracle0 =
      some (.ok [[.set_tempo 500000, .program_change 73 0, .note_on 64 30 480 0,
                  .note_off 62 30 0 0, .note_off 64 0 0 0],
                 [.set_tempo 500000, .program_change 33 1]]) ∧
    ∃ mrest brest,
      ([[Msg.set_tempo 500000, .program_change 73 0, .note_on 64 30 480 0,
         .note_off 62 30 0 0, .note_off 64 0 0 0],
        [Msg.set_tempo 500000, .program_change 33 1]] : List (List Msg)) =
        [[.set_tempo (bpm2tempo 120), .program_change 73 0] ++ mrest,
         [.set_tempo (bpm2tempo 120), .program_change 33 1] ++ brest] ∧
      (∀ m ∈ mrest, isNoteEventOn 0 m = true) ∧
      (∀ m ∈ brest, isNoteEventOn 1 m = true) :=
  ⟨by with_unfolding_all rfl,
    generate_music_container ⟨2, [([60, 62], [(64, 1)])], []⟩ 1 120 oracle0 oracle0 _
      (by with_unfolding_all rfl)⟩

theorem extract_append (l1 l2 : List Msg) :
    extract_notes_from_track (l1 ++ l2) =
      extract_notes_from_track l1 ++ extract_notes_from_track l2 :=
  List.filterMap_append _ _ _

theorem cycleStates_shift (s : State) (hs : s ∈ cycleStates) :
    cycleShift s ∈ cycleStates := by
  simp only [cycleStates, List.mem_cons, List.not_mem_nil, or_false] at hs
  rcases hs with rfl | rfl | rfl <;> decide

theorem stateAfter_mem (s : State) (hs : s ∈ cycleStates) (n : Nat) :
    stateAfter s n ∈ cycleStates := by
  induction n with
  | zero => exact hs
  | succ n ih => exact cycleStates_shift _ ih

theorem alookup_cycleTable (s : State) (hs : s ∈ cycleStates) :
    alookup cycleTable s = some [(cycleNext s, 1)] := by
  simp only [cycleStates, List.mem_cons, List.not_mem_nil, or_false] at hs
  rcases hs with rfl | rfl | rfl <;> rfl

theorem cycleStates_length_two (s : State) (hs : s ∈ cycleStates) : s.length = 2 := by
  simp only [cycleStates, List.mem_cons, List.not_mem_nil, or_false] at hs
  rcases hs with rfl | rfl | rfl <;> rfl

theorem cycleExt_length (s : State) (hs : s ∈ cycleStates) (n : Nat) :
    (cycleExt s n).length = n + 2 := by
  induction n with
  | zero => exact cycleStates_length_two s hs
  | succ n ih =>
      rw [cycleExt, List.length_append, ih]
      simp

theorem cycleExt_drop (s : State) (hs : s ∈ cycleStates) (n : Nat) :
    (cycleExt s n).drop n = stateAfter s n := by
  induction n with
  | zero => rfl
  | succ n ih =>
      rw [cycleExt, List.drop_append_of_le_length (by rw [cycleExt_length s hs n]; omega)]
      rw [(List.drop_drop 1 n (cycleExt s n)).symm, ih]
      have hstep : stateAfter s (n + 1) = cycleShift (stateAfter s n) := rfl
      have hmem := stateAfter_mem s hs n
      simp only [cycleStates, List.mem_cons, List.not_mem_nil, or_false] at hmem
      rcases hmem with h2 | h2 | h2 <;> rw [hstep, h2] <;> rfl

theorem weightedPick_singleton (p : Nat × ℚ) (r : ℚ) : weightedPick [p] r = p.1 := rfl

theorem cycleRun_succ (o : Oracle) (s : State) (trackIn : List Msg) (n : Nat) :
    cycleRun o s trackIn (n + 1) =
      genStep 2 cycleTable cycleStates 0 30 60 o (cycleRun o s trackIn n) n := by
  rw [cycleRun, cycleRun, List.range_succ, List.foldl_append, List.foldl_cons, List.foldl_nil]

theorem cycleRun_inv (o : Oracle) (s : State) (hs : s ∈ cycleStates) (trackIn : List Msg) :
    ∀ n, (cycleRun o s trackIn n).generated_notes = cycleExt s n ∧
      (cycleRun o s trackIn n).current_state = stateAfter s n ∧
      extract_notes_from_track (cycleRun o s trackIn n).track =
        extract_notes_from_track trackIn ++ (cycleExt s n).drop 2 ∧
      (cycleRun o s trackIn n).channel_assigned = if n = 0 then none else some 0 := by
  intro n
  induction n with
  | zero =>
      refine ⟨rfl, rfl, ?_, rfl⟩
      have h2 : (cycleExt s 0).drop 2 = [] :=
        List.drop_eq_nil_of_le (by rw [cycleExt_length s hs 0])
      rw [h2, List.append_nil]
      rfl
  | succ n ih =>
      obtain ⟨hgn, hcs, htr, hch⟩ := ih
      have hmem := stateAfter_mem s hs n
      have hlk : (alookup cycleTable (cycleRun o s trackIn n).current_state).getD [] =
          [(cycleNext (stateAfter s n), 1)] := by
        rw [hcs, alookup_cycleTable _ hmem]
        rfl
      rw [cycleRun_succ]
      simp only [genStep, hlk, weightedPick_singleton]
      rw [if_neg (show ¬ ([(cycleNext (stateAfter s n), 1)] : NoteDist) = [] from
        List.cons_ne_nil _ _)]
      dsimp only
      have hext : cycleExt s n ++ [cycleNext (stateAfter s n)] = cycleExt s (n + 1) := rfl
      refine ⟨?_, ?_, ?_, rfl⟩
      · rw [hgn]
        exact hext
      · rw [hgn, hext, cycleExt_length s hs (n + 1)]
        have h21 : n + 1 + 2 - 2 = n + 1 := by omega
        rw [h21]
        exact cycleExt_drop s hs (n + 1)
      · rw [extract_append, htr]
        have hv : 0 < 30 + o.vel_u n % (60 - 30 + 1) := by omega
        have hx : extract_notes_from_track
            [Msg.note_on (cycleNext (stateAfter s n)) (30 + o.vel_u n % (60 - 30 + 1))
              (weightedPick (note_durations.zip duration_weights) (o.dur_u n)) 0,
             Msg.note_off ((cycleRun o s trackIn n).generated_notes.getLastD 0)
              (30 + o.vel_u n % (60 - 30 + 1)) 0 0] =
            [cycleNext (stateAfter s n)] := by
          simp [extract_notes_from_track, hv]
        rw [hx]
        have hdrop : (cycleExt s (n + 1)).drop 2 = (cycleExt s n).drop 2 ++
            [cycleNext (stateAfter s n)] := by
          rw [← hext, List.drop_append_of_le_length (by rw [cycleExt_length s hs n]; omega)]
        rw [hdrop, List.append_assoc]

set_option maxRecDepth 8000 in
/-- C4: training at order 2 on the pitch sequence 60, 62, 64 repeated 30
times yields exactly the table (60,62) to 64 with probability 1, (62,64) to
60, (64,60) to 62; and generation from this table is deterministic in pitch:
whatever state the initial random choice lands on and whatever the random
draws do, the emitted pitch sequence is exactly the continuation of the
60, 62, 64 cycle from that state (`cycleExt`), one pitch per iteration. -/
theorem cycle_round_trip :
    build_transitions 2 [] cycleNotes = cycleTable ∧
    ∀ (o : Oracle) (n : Nat), 1 ≤ n →
      ∃ tr, generate_track 2 cycleTable 0 n 30 60 o [] = .ok tr ∧
        extract_notes_from_track tr =
          (cycleExt (cycleStates.getD (o.init_choice % 3) []) n).drop 2 := by
  constructor
  · with_unfolding_all decide
  · intro o n hn
    have hkeys : cycleTable.map (fun e => e.1) ≠ [] := by decide
    have hs0 : cycleStates.getD (o.init_choice % 3) [] ∈ cycleStates := by
      have h3 : o.init_choice % 3 = 0 ∨ o.init_choice % 3 = 1 ∨ o.init_choice % 3 = 2 := by
        omega
      rcases h3 with h | h | h <;> rw [h] <;> decide
    obtain ⟨hgn, hcs, htr, hch⟩ := cycleRun_inv o _ hs0 [] n
    have hrun : genLoop 2 cycleTable 0 n 30 60 o [] =
        cycleRun o (cycleStates.getD (o.init_choice % 3) []) [] n := rfl
    simp only [generate_track]
    rw [if_neg hkeys, hrun]
    have hchn : (cycleRun o (cycleStates.getD (o.init_choice % 3) []) [] n).channel_assigned =
        some 0 := by
      rw [hch, if_neg (by omega : ¬ n = 0)]
    rw [hchn]
    refine ⟨_, rfl, ?_⟩
    rw [extract_append, htr]
    simp [extract_notes_from_track]

set_option maxRecDepth 8000 in
/-- Witness for C4 at length 3 with the all-zero oracle (start state
(60, 62)). -/
theorem cycle_round_trip_witness :
    1 ≤ 3 ∧ ∃ tr, generate_track 2 cycleTable 0 3 30 60 oracle0 [] = .ok tr ∧
      extract_notes_from_track tr =
        (cycleExt (cycleStates.getD (oracle0.init_choice % 3) []) 3).drop 2 :=
  ⟨by decide, cycle_round_trip.2 oracle0 3 (by decide)⟩

end MusicComposer
